import Mathlib

/-!
Shallow embedding of the `mepoo` object pool (`src/lib.rs`).

The Rust code stores values of type `T` in fixed-size blocks
(`Vec<Box<[Entry<T>]>>`) and threads the vacant slots into an intrusive
singly linked free list of raw pointers (`NonNull<Entry<T>>`).  Blocks are
never moved or removed, so every slot has a stable address that is
uniquely described by the pair (index of its block in the block vector,
index of the slot inside the block).  The embedding uses that pair,
`Loc := Nat × Nat`, as the abstract address of a slot; the pool itself is
the heap, so dereferencing a pointer becomes a lookup into the pool's
blocks.  Panics (`assert!`, `panic!`, `unwrap` on `None`) and
undefined-behaviour dereferences are modelled as `Except.error ()`;
ordinary returns are `Except.ok`.  The process-wide atomic `COUNTER`
behind `PoolId::gen` is modelled by threading its value explicitly.
-/

/-- `getAt xs n` is the embedding of indexing (`xs[n]` / `Vec::get`):
`some` of the element when `n` is in range, `none` otherwise. -/
def getAt {α : Type} : List α → Nat → Option α
  | [], _ => none
  | a :: _, 0 => some a
  | _ :: as, n + 1 => getAt as n

/-- `setAt xs n b` replaces the element at index `n` (no-op out of range);
the embedding of an in-place store through a valid index. -/
def setAt {α : Type} : List α → Nat → α → List α
  | [], _, _ => []
  | _ :: as, 0, b => b :: as
  | a :: as, n + 1, b => a :: setAt as n b

theorem length_setAt {α : Type} (xs : List α) (n : Nat) (b : α) :
    (setAt xs n b).length = xs.length := by
  induction xs generalizing n with
  | nil => rfl
  | cons a as ih =>
    cases n with
    | zero => rfl
    | succ m => simpa [setAt] using ih m

theorem getAt_lt_length {α : Type} {xs : List α} {n : Nat} {a : α}
    (h : getAt xs n = some a) : n < xs.length := by
  induction xs generalizing n with
  | nil => simp [getAt] at h
  | cons x ys ih =>
    cases n with
    | zero => simp
    | succ m =>
      have := ih (n := m) h
      simpa [Nat.succ_lt_succ_iff] using this

theorem getAt_none_of_ge {α : Type} {xs : List α} {n : Nat}
    (h : xs.length ≤ n) : getAt xs n = none := by
  induction xs generalizing n with
  | nil => rfl
  | cons x ys ih =>
    cases n with
    | zero => simp at h
    | succ m => exact ih (Nat.le_of_succ_le_succ h)

theorem getAt_isSome_of_lt {α : Type} {xs : List α} {n : Nat}
    (h : n < xs.length) : ∃ a, getAt xs n = some a := by
  induction xs generalizing n with
  | nil => simp at h
  | cons x ys ih =>
    cases n with
    | zero => exact ⟨x, rfl⟩
    | succ m => exact ih (Nat.lt_of_succ_lt_succ h)

theorem getAt_setAt_self {α : Type} {xs : List α} {n : Nat}
    (h : n < xs.length) (b : α) : getAt (setAt xs n b) n = some b := by
  induction xs generalizing n with
  | nil => simp at h
  | cons x ys ih =>
    cases n with
    | zero => rfl
    | succ m => exact ih (Nat.lt_of_succ_lt_succ h)

theorem getAt_setAt_ne {α : Type} (xs : List α) {m n : Nat} (h : m ≠ n) (b : α) :
    getAt (setAt xs n b) m = getAt xs m := by
  induction xs generalizing m n with
  | nil => rfl
  | cons x ys ih =>
    cases n with
    | zero =>
      cases m with
      | zero => exact absurd rfl h
      | succ k => rfl
    | succ n' =>
      cases m with
      | zero => rfl
      | succ m' => exact ih (fun he => h (by rw [he]))

theorem getAt_append_lt {α : Type} {xs : List α} (ys : List α) {n : Nat}
    (h : n < xs.length) : getAt (xs ++ ys) n = getAt xs n := by
  induction xs generalizing n with
  | nil => simp at h
  | cons x zs ih =>
    cases n with
    | zero => rfl
    | succ m => exact ih (Nat.lt_of_succ_lt_succ h)

theorem getAt_append_right {α : Type} (xs ys : List α) (n : Nat) :
    getAt (xs ++ ys) (xs.length + n) = getAt ys n := by
  induction xs with
  | nil => simp [getAt]
  | cons x zs ih => simpa [Nat.succ_add] using ih

theorem getAt_append_last {α : Type} (xs : List α) (y : α) :
    getAt (xs ++ [y]) xs.length = some y := by
  have := getAt_append_right xs [y] 0
  simpa using this

/-- Abstract address of a slot: (index of its block, index inside the block).
Models the stable `NonNull<Entry<T>>` raw pointer of the Rust code. -/
abbrev Loc : Type := Nat × Nat

/-- `enum Entry<T> { Vacant(Option<NonNull<Entry<T>>>), Occupied(T) }` -/
inductive Entry (T : Type) where
  | Vacant : Option Loc → Entry T
  | Occupied : T → Entry T
deriving DecidableEq

/-- `PoolId(usize)`: process-wide pool identity (a plain counter value). -/
abbrev PoolId : Type := Nat

/-- `PoolId::ZERO`, the reserved sentinel identity, never issued by `gen`. -/
def PoolId.ZERO : PoolId := 0

/-- The initial value of the global `COUNTER` (`AtomicUsize::new(1)`). -/
def counterInit : Nat := 1

/-- `PoolId::gen()` = `COUNTER.fetch_add(1)`: takes the current counter
value `c`, returns the issued id (the old value) and the new counter. -/
def poolIdGen (c : Nat) : PoolId × Nat := (c, c + 1)

/-- `struct Pool<T> { blocks: Vec<Box<[Entry<T>]>>, vacant: Option<NonNull<Entry<T>>>, id: PoolId }` -/
structure Pool (T : Type) where
  blocks : List (List (Entry T))
  vacant : Option Loc
  id : PoolId
deriving DecidableEq

/-- `struct Ptr<T> { ptr: NonNull<Entry<T>>, pool_id: PoolId }` -/
structure Ptr (T : Type) where
  loc : Loc
  pool_id : PoolId
deriving DecidableEq

/-- `struct Ref<'a, T> { value: &'a T, entry: &'a Entry<T>, pool_id: PoolId }` -/
structure Ref (T : Type) where
  value : T
  entry : Loc
  pool_id : PoolId
deriving DecidableEq

/-- `impl From<Ref<'a, T>> for Ptr<T>` -/
def Ref.toPtr {T : Type} (r : Ref T) : Ptr T :=
  ⟨r.entry, r.pool_id⟩

/-- `Ptr::DANGLING`: `NonNull::dangling()` is a fixed address that never
points into any pool; only the reserved `pool_id` `ZERO` matters for the
behaviour of the checked operations, which validate the id first. -/
def Ptr.DANGLING {T : Type} : Ptr T :=
  ⟨(0, 0), PoolId.ZERO⟩

/-- `Pool::BLOCK_SIZE` -/
def BLOCK_SIZE : Nat := 1024

/-- Two-level indexing of the block vector: the embedding of dereferencing
a slot address against the pool that owns the storage. -/
def getSlot {T : Type} (bs : List (List (Entry T))) (l : Loc) : Option (Entry T) :=
  match getAt bs l.1 with
  | some blk => getAt blk l.2
  | none => none

/-- Two-level store: the embedding of `*ptr = e` for an address inside the
pool's blocks (no-op out of range; the source only ever writes through
addresses of existing slots). -/
def writeSlot {T : Type} (bs : List (List (Entry T))) (l : Loc) (e : Entry T) :
    List (List (Entry T)) :=
  match getAt bs l.1 with
  | some blk => setAt bs l.1 (setAt blk l.2 e)
  | none => bs

/-- Reading the entry a `Ptr` points at, i.e. `*self.ptr.as_ptr()`. -/
def Pool.lookup {T : Type} (p : Pool T) (l : Loc) : Option (Entry T) :=
  getSlot p.blocks l

/-- `Pool::new()`: empty pool with a freshly generated id; the global
counter value is threaded explicitly ( `c` in, new counter out). -/
def Pool.new {T : Type} (c : Nat) : Pool T × Nat :=
  (⟨[], none, (poolIdGen c).1⟩, (poolIdGen c).2)

/-- `Pool::block_size()` -/
def Pool.block_size {T : Type} (_ : Pool T) : Nat := BLOCK_SIZE

/-- State of `Pool::new_block`'s loop after `n` iterations, starting from
an empty vector and `vacant = None`; each iteration pushes
`Entry::Vacant(vacant)` and points `vacant` at the slot just pushed.
`b` is the block index the new block will occupy. -/
def blockLoop {T : Type} (b : Nat) : Nat → List (Entry T) × Option Loc
  | 0 => ([], none)
  | n + 1 =>
    let st := blockLoop b n
    (st.1 ++ [Entry.Vacant st.2], some (b, st.1.length))

/-- `Pool::new_block()`: builds one block of `BLOCK_SIZE` vacant entries
and returns (address to become the free-list head, the block).  The head
is `none` only if `BLOCK_SIZE = 0` (the source `unwrap`s there). -/
def Pool.new_block {T : Type} (b : Nat) : Option Loc × List (Entry T) :=
  ((blockLoop (T := T) b BLOCK_SIZE).2, (blockLoop (T := T) b BLOCK_SIZE).1)

/-- `Pool::alloc`.  `Except.error ()` models the panics: the `unwrap` in
`new_block` (impossible, `BLOCK_SIZE > 0`), the `panic!("error")` when the
popped free-list head is not `Vacant`, and the undefined dereference of an
address outside the pool. -/
def Pool.alloc {T : Type} (p : Pool T) (value : T) : Except Unit (Ptr T × Pool T) :=
  match (match p.vacant with
    | some v => some (v, p)
    | none =>
      match Pool.new_block (T := T) p.blocks.length with
      | (some head, block) =>
        some (head, { p with blocks := p.blocks ++ [block], vacant := some head })
      | (none, _) => none) with
  | none => Except.error ()
  | some (v, q) =>
    match q.lookup v with
    | some (Entry.Vacant nxt) =>
      Except.ok (⟨v, p.id⟩,
        { q with vacant := nxt, blocks := writeSlot q.blocks v (Entry.Occupied value) })
    | some (Entry.Occupied _) => Except.error ()
    | none => Except.error ()

/-- `Pool::free`.  The failed `assert!(h.pool_id == self.id())` and the
undefined dereference of a foreign address are `Except.error ()`. -/
def Pool.free {T : Type} (p : Pool T) (h : Ptr T) : Except Unit (Bool × Pool T) :=
  if h.pool_id = p.id then
    match p.lookup h.loc with
    | some (Entry.Vacant _) => Except.ok (false, p)
    | some (Entry.Occupied _) =>
      Except.ok (true,
        { p with blocks := writeSlot p.blocks h.loc (Entry.Vacant p.vacant),
                 vacant := some h.loc })
    | none => Except.error ()
  else Except.error ()

/-- `Ptr::as_ref`: dereference against the pool that owns the storage. -/
def Ptr.as_ref {T : Type} (h : Ptr T) (p : Pool T) : Except Unit (Option (Ref T)) :=
  match p.lookup h.loc with
  | some (Entry.Occupied v) => Except.ok (some ⟨v, h.loc, h.pool_id⟩)
  | some (Entry.Vacant _) => Except.ok none
  | none => Except.error ()

/-- `Ptr::as_mut`: like `as_ref` but yields the bare value (the target of
the returned `&mut T`). -/
def Ptr.as_mut {T : Type} (h : Ptr T) (p : Pool T) : Except Unit (Option T) :=
  match p.lookup h.loc with
  | some (Entry.Occupied v) => Except.ok (some v)
  | some (Entry.Vacant _) => Except.ok none
  | none => Except.error ()

/-- `Pool::get`: identity assertion, then dereference. -/
def Pool.get {T : Type} (p : Pool T) (h : Ptr T) : Except Unit (Option (Ref T)) :=
  if h.pool_id = p.id then h.as_ref p else Except.error ()

/-- `Pool::get_unsafe` (renamed: the Rust name is `get_unsafe`): identity
assertion, then mutable dereference. -/
def Pool.getUnchecked {T : Type} (p : Pool T) (h : Ptr T) : Except Unit (Option T) :=
  if h.pool_id = p.id then h.as_mut p else Except.error ()

/-- `Pool::get_mut`, which just delegates to `get_unsafe`. -/
def Pool.get_mut {T : Type} (p : Pool T) (h : Ptr T) : Except Unit (Option T) :=
  p.getUnchecked h

/-- `impl PartialEq for Ptr`: compares the raw pointer and the pool id. -/
def Ptr.beq {T : Type} (a b : Ptr T) : Bool :=
  decide (a.loc = b.loc) && decide (a.pool_id = b.pool_id)

/-- Model of the total order on raw slot addresses used by
`impl Ord for Ptr` (`self.ptr.cmp(&rhs.ptr)`): blocks are disjoint stable
allocations and slots are contiguous inside a block, so some total order
on `Loc` consistent with per-block contiguity represents it; the
lexicographic one is taken. -/
def locCompare (x y : Loc) : Ordering :=
  if x.1 < y.1 then Ordering.lt
  else if y.1 < x.1 then Ordering.gt
  else if x.2 < y.2 then Ordering.lt
  else if y.2 < x.2 then Ordering.gt
  else Ordering.eq

/-- `impl Ord for Ptr`: compares only the raw pointer, not the pool id. -/
def Ptr.cmp {T : Type} (a b : Ptr T) : Ordering :=
  locCompare a.loc b.loc

/-- `impl Hash for Ptr`: `self.ptr.hash(state)` feeds only the raw
pointer to the hasher; `f` abstracts the hasher state transformation. -/
def Ptr.hashWith {T : Type} (f : Loc → Nat) (a : Ptr T) : Nat :=
  f a.loc

/-- Running a list of `alloc` calls in order, collecting the handles. -/
def allocList {T : Type} (p : Pool T) : List T → Except Unit (List (Ptr T) × Pool T)
  | [] => Except.ok ([], p)
  | v :: vs =>
    match p.alloc v with
    | Except.error e => Except.error e
    | Except.ok (h, p₁) =>
      match allocList p₁ vs with
      | Except.error e => Except.error e
      | Except.ok (hs, p₂) => Except.ok (h :: hs, p₂)

/-! ### Storage lemmas -/

theorem getSlot_append_preserve {T : Type} {bs : List (List (Entry T))}
    (ys : List (List (Entry T))) {l : Loc} {e : Entry T}
    (h : getSlot bs l = some e) : getSlot (bs ++ ys) l = some e := by
  unfold getSlot at h ⊢
  cases hb : getAt bs l.1 with
  | none => rw [hb] at h; exact absurd h (by simp)
  | some blk =>
    rw [hb] at h
    rw [getAt_append_lt ys (getAt_lt_length hb), hb]
    exact h

theorem getSlot_append_new {T : Type} (bs : List (List (Entry T)))
    (blk : List (Entry T)) (j : Nat) :
    getSlot (bs ++ [blk]) (bs.length, j) = getAt blk j := by
  unfold getSlot
  rw [getAt_append_last]

theorem writeSlot_length {T : Type} (bs : List (List (Entry T))) (l : Loc) (e : Entry T) :
    (writeSlot bs l e).length = bs.length := by
  unfold writeSlot
  cases hb : getAt bs l.1 with
  | none => rfl
  | some blk => simp [length_setAt]

theorem getSlot_write_self {T : Type} {bs : List (List (Entry T))} {l : Loc} {e' : Entry T}
    (h : getSlot bs l = some e') (e : Entry T) :
    getSlot (writeSlot bs l e) l = some e := by
  unfold getSlot at h
  unfold writeSlot getSlot
  cases hb : getAt bs l.1 with
  | none =>
    simp only [hb] at h
    exact Option.noConfusion h
  | some blk =>
    simp only [hb] at h ⊢
    rw [getAt_setAt_self (getAt_lt_length hb)]
    exact getAt_setAt_self (getAt_lt_length h) e

theorem getSlot_write_ne {T : Type} (bs : List (List (Entry T))) {l l' : Loc}
    (hne : l' ≠ l) (e : Entry T) :
    getSlot (writeSlot bs l e) l' = getSlot bs l' := by
  unfold writeSlot
  cases hb : getAt bs l.1 with
  | none => rfl
  | some blk =>
    unfold getSlot
    by_cases h1 : l'.1 = l.1
    · have h2 : l'.2 ≠ l.2 := by
        intro h2
        exact hne (Prod.ext h1 h2)
      rw [h1, getAt_setAt_self (getAt_lt_length hb), hb]
      exact getAt_setAt_ne blk h2 e
    · rw [getAt_setAt_ne bs h1 (setAt blk l.2 e)]

theorem getSlot_write_isSome {T : Type} {bs : List (List (Entry T))} {l l' : Loc}
    {e' : Entry T} (h : getSlot bs l' = some e') (e : Entry T) :
    ∃ e'', getSlot (writeSlot bs l e) l' = some e'' := by
  by_cases hll : l' = l
  · subst hll
    exact ⟨e, getSlot_write_self h e⟩
  · exact ⟨e', by rw [getSlot_write_ne bs hll e]; exact h⟩

/-! ### Lemmas about `new_block`'s loop -/

theorem blockLoop_length {T : Type} (b : Nat) :
    ∀ n : Nat, (blockLoop (T := T) b n).1.length = n := by
  intro n
  induction n with
  | zero => rfl
  | succ m ih => simp [blockLoop, ih]

theorem blockLoop_vacant {T : Type} (b : Nat) :
    ∀ n : Nat, (blockLoop (T := T) b n).2 =
      if n = 0 then none else some (b, n - 1) := by
  intro n
  cases n with
  | zero => rfl
  | succ m => simp [blockLoop, blockLoop_length]

theorem blockLoop_getAt {T : Type} (b : Nat) :
    ∀ n : Nat, ∀ i : Nat, i < n →
      getAt (blockLoop (T := T) b n).1 i =
        some (Entry.Vacant (if i = 0 then none else some (b, i - 1))) := by
  intro n
  induction n with
  | zero => intro i hi; exact absurd hi (Nat.not_lt_zero i)
  | succ m ih =>
    intro i hi
    rcases Nat.lt_or_ge i m with hlt | hge
    · show getAt ((blockLoop (T := T) b m).1 ++ [Entry.Vacant (blockLoop (T := T) b m).2]) i = _
      rw [getAt_append_lt _ (by rw [blockLoop_length]; exact hlt)]
      exact ih i hlt
    · have hieq : i = m := Nat.le_antisymm (Nat.lt_succ_iff.mp hi) hge
      subst hieq
      show getAt ((blockLoop (T := T) b i).1 ++ [Entry.Vacant (blockLoop (T := T) b i).2]) i = _
      have hlast := getAt_append_last (blockLoop (T := T) b i).1
        (Entry.Vacant (blockLoop (T := T) b i).2)
      rw [blockLoop_length] at hlast
      rw [hlast, blockLoop_vacant]

theorem new_block_head {T : Type} (b : Nat) :
    (Pool.new_block (T := T) b).1 = some (b, BLOCK_SIZE - 1) := by
  show (blockLoop (T := T) b BLOCK_SIZE).2 = _
  rw [blockLoop_vacant]
  rfl

theorem new_block_slots {T : Type} (b : Nat) {i : Nat} (hi : i < BLOCK_SIZE) :
    getAt (Pool.new_block (T := T) b).2 i =
      some (Entry.Vacant (if i = 0 then none else some (b, i - 1))) :=
  blockLoop_getAt b BLOCK_SIZE i hi

theorem new_block_length {T : Type} (b : Nat) :
    (Pool.new_block (T := T) b).2.length = BLOCK_SIZE :=
  blockLoop_length b BLOCK_SIZE

/-! ### Evaluation equations and inversions for `alloc` and `free` -/

theorem alloc_vacant_some_eq {T : Type} {p : Pool T} {v : Loc} {nxt : Option Loc}
    (value : T) (h0 : p.vacant = some v)
    (h1 : p.lookup v = some (Entry.Vacant nxt)) :
    p.alloc value = Except.ok (⟨v, p.id⟩,
      ⟨writeSlot p.blocks v (Entry.Occupied value), nxt, p.id⟩) := by
  unfold Pool.alloc
  simp only [h0, h1]

theorem alloc_vacant_none_eq {T : Type} {p : Pool T} (value : T)
    (h0 : p.vacant = none) :
    p.alloc value = Except.ok (⟨(p.blocks.length, 1023), p.id⟩,
      ⟨writeSlot (p.blocks ++ [(Pool.new_block (T := T) p.blocks.length).2])
         (p.blocks.length, 1023) (Entry.Occupied value),
       some (p.blocks.length, 1022), p.id⟩) := by
  obtain ⟨hd, L, hnb⟩ : ∃ hd L, Pool.new_block (T := T) p.blocks.length = (hd, L) :=
    ⟨_, _, rfl⟩
  have hhd : hd = some (p.blocks.length, 1023) := by
    have h1 := new_block_head (T := T) p.blocks.length
    rw [hnb] at h1
    simpa [BLOCK_SIZE] using h1
  have hlook : getSlot (p.blocks ++ [L]) (p.blocks.length, 1023) =
      some (Entry.Vacant (some (p.blocks.length, 1022))) := by
    rw [getSlot_append_new]
    have hs := new_block_slots (T := T) p.blocks.length (i := 1023)
      (by norm_num [BLOCK_SIZE])
    rw [hnb] at hs
    simpa using hs
  unfold Pool.alloc
  rw [hnb, hhd]
  simp only [h0, Pool.lookup]
  simp only [hlook]

theorem alloc_ok_cases {T : Type} {p : Pool T} {value : T} {h : Ptr T} {p' : Pool T}
    (hok : p.alloc value = Except.ok (h, p')) :
    (∃ nxt, p.vacant = some h.loc ∧ p.lookup h.loc = some (Entry.Vacant nxt) ∧
      h = ⟨h.loc, p.id⟩ ∧
      p' = ⟨writeSlot p.blocks h.loc (Entry.Occupied value), nxt, p.id⟩) ∨
    (p.vacant = none ∧ h = ⟨(p.blocks.length, 1023), p.id⟩ ∧
      p' = ⟨writeSlot (p.blocks ++ [(Pool.new_block (T := T) p.blocks.length).2])
              (p.blocks.length, 1023) (Entry.Occupied value),
            some (p.blocks.length, 1022), p.id⟩) := by
  cases hv : p.vacant with
  | some v =>
    cases hl : p.lookup v with
    | none =>
      unfold Pool.alloc at hok
      simp only [hv, hl] at hok
      exact Except.noConfusion hok
    | some e =>
      cases e with
      | Occupied w =>
        unfold Pool.alloc at hok
        simp only [hv, hl] at hok
        exact Except.noConfusion hok
      | Vacant nxt =>
        rw [alloc_vacant_some_eq value hv hl] at hok
        simp only [Except.ok.injEq, Prod.mk.injEq] at hok
        obtain ⟨hh, hp⟩ := hok
        subst hh
        subst hp
        left
        exact ⟨nxt, rfl, hl, rfl, rfl⟩
  | none =>
    rw [alloc_vacant_none_eq value hv] at hok
    simp only [Except.ok.injEq, Prod.mk.injEq] at hok
    obtain ⟨hh, hp⟩ := hok
    subst hh
    subst hp
    right
    exact ⟨rfl, rfl, rfl⟩

theorem free_vacant_eq {T : Type} {p : Pool T} {h : Ptr T} {nxt : Option Loc}
    (hid : h.pool_id = p.id) (hvac : p.lookup h.loc = some (Entry.Vacant nxt)) :
    p.free h = Except.ok (false, p) := by
  unfold Pool.free
  rw [if_pos hid]
  simp only [hvac]

theorem free_occupied_eq {T : Type} {p : Pool T} {h : Ptr T} {w : T}
    (hid : h.pool_id = p.id) (hocc : p.lookup h.loc = some (Entry.Occupied w)) :
    p.free h = Except.ok (true,
      ⟨writeSlot p.blocks h.loc (Entry.Vacant p.vacant), some h.loc, p.id⟩) := by
  unfold Pool.free
  rw [if_pos hid]
  simp only [hocc]

theorem free_ok_cases {T : Type} {p : Pool T} {h : Ptr T} {b : Bool} {p₁ : Pool T}
    (hok : p.free h = Except.ok (b, p₁)) :
    h.pool_id = p.id ∧
    ((b = false ∧ (∃ nxt, p.lookup h.loc = some (Entry.Vacant nxt)) ∧ p₁ = p) ∨
     (b = true ∧ (∃ w, p.lookup h.loc = some (Entry.Occupied w)) ∧
       p₁ = ⟨writeSlot p.blocks h.loc (Entry.Vacant p.vacant), some h.loc, p.id⟩)) := by
  by_cases hid : h.pool_id = p.id
  · refine ⟨hid, ?_⟩
    cases hl : p.lookup h.loc with
    | none =>
      unfold Pool.free at hok
      rw [if_pos hid] at hok
      simp only [hl] at hok
      exact Except.noConfusion hok
    | some e =>
      cases e with
      | Vacant nxt =>
        rw [free_vacant_eq hid hl] at hok
        simp only [Except.ok.injEq, Prod.mk.injEq] at hok
        exact Or.inl ⟨hok.1.symm, ⟨nxt, rfl⟩, hok.2.symm⟩
      | Occupied w =>
        rw [free_occupied_eq hid hl] at hok
        simp only [Except.ok.injEq, Prod.mk.injEq] at hok
        exact Or.inr ⟨hok.1.symm, ⟨w, rfl⟩, hok.2.symm⟩
  · unfold Pool.free at hok
    rw [if_neg hid] at hok
    exact Except.noConfusion hok

/-! ### The free list as a relation, and the pool invariant -/

/-- `FreeChain p link ls`: starting from the link value `link`, following
the `Vacant` links visits exactly the slots `ls` and ends at `none`. -/
inductive FreeChain {T : Type} (p : Pool T) : Option Loc → List Loc → Prop where
  | nil : FreeChain p none []
  | cons {l : Loc} {nxt : Option Loc} {ls : List Loc} :
      p.lookup l = some (Entry.Vacant nxt) → FreeChain p nxt ls →
      FreeChain p (some l) (l :: ls)

/-- The pool's internal consistency invariant: the free list starting at
`p.vacant` is a finite chain of distinct slots (each of them `Vacant`). -/
def ChainInv {T : Type} (p : Pool T) : Prop :=
  ∃ ls, FreeChain p p.vacant ls ∧ ls.Nodup

/-- A slot is reachable from a link value by following `Vacant` links. -/
inductive SlotReachable {T : Type} (p : Pool T) : Option Loc → Loc → Prop where
  | head (l : Loc) : SlotReachable p (some l) l
  | step {l l' : Loc} {nxt : Option Loc} :
      p.lookup l = some (Entry.Vacant nxt) → SlotReachable p nxt l' →
      SlotReachable p (some l) l'

theorem freeChain_mem_vacant {T : Type} {p : Pool T} {o : Option Loc} {ls : List Loc}
    (hch : FreeChain p o ls) : ∀ l ∈ ls, ∃ nxt, p.lookup l = some (Entry.Vacant nxt) := by
  induction hch with
  | nil => intro l hl; exact absurd hl (List.not_mem_nil l)
  | cons hlk _ ih =>
    intro l hl
    rcases List.mem_cons.mp hl with he | ht
    · subst he; exact ⟨_, hlk⟩
    · exact ih l ht

theorem freeChain_transfer {T : Type} {p q : Pool T} {o : Option Loc} {ls : List Loc}
    (hch : FreeChain p o ls) (hsame : ∀ l ∈ ls, q.lookup l = p.lookup l) :
    FreeChain q o ls := by
  induction hch with
  | nil => exact FreeChain.nil
  | cons hlk hrest ih =>
    refine FreeChain.cons ?_ (ih ?_)
    · rw [hsame _ (List.mem_cons_self _ _)]
      exact hlk
    · intro l hl
      exact hsame l (List.mem_cons_of_mem _ hl)

theorem slotReachable_mem {T : Type} {p : Pool T} {o : Option Loc} {ls : List Loc}
    {l : Loc} (hch : FreeChain p o ls) (hr : SlotReachable p o l) : l ∈ ls := by
  induction hr generalizing ls with
  | head l' =>
    cases hch with
    | cons _ _ => exact List.mem_cons_self _ _
  | step hlk _ ih =>
    cases hch with
    | cons hlk' hrest =>
      have h0 := hlk'.symm.trans hlk
      simp only [Option.some.injEq, Entry.Vacant.injEq] at h0
      exact List.mem_cons_of_mem _ (ih (h0 ▸ hrest))

/-- The slot addresses of the fresh block's chain, from the head (slot
`n - 1`) down to slot `0`. -/
def descLocs (b : Nat) : Nat → List Loc
  | 0 => []
  | n + 1 => (b, n) :: descLocs b n

theorem descLocs_mem {b n : Nat} {l : Loc} (h : l ∈ descLocs b n) : l.1 = b ∧ l.2 < n := by
  induction n with
  | zero => exact absurd h (List.not_mem_nil l)
  | succ m ih =>
    rcases List.mem_cons.mp h with he | ht
    · subst he; exact ⟨rfl, Nat.lt_succ_self m⟩
    · have := ih ht
      exact ⟨this.1, Nat.lt_succ_of_lt this.2⟩

theorem descLocs_nodup (b n : Nat) : (descLocs b n).Nodup := by
  induction n with
  | zero => exact List.nodup_nil
  | succ m ih =>
    refine List.nodup_cons.mpr ⟨?_, ih⟩
    intro hmem
    exact absurd (descLocs_mem hmem).2 (Nat.lt_irrefl m)

theorem freeChain_desc {T : Type} {p : Pool T} {b : Nat} :
    ∀ n : Nat,
      (∀ i, i < n → p.lookup (b, i) =
        some (Entry.Vacant (if i = 0 then none else some (b, i - 1)))) →
      FreeChain p (if n = 0 then none else some (b, n - 1)) (descLocs b n) := by
  intro n
  induction n with
  | zero => intro _; exact FreeChain.nil
  | succ m ih =>
    intro hslots
    have hm := hslots m (Nat.lt_succ_self m)
    simp only [Nat.succ_ne_zero, if_false, Nat.succ_sub_one]
    exact FreeChain.cons hm (ih (fun i hi => hslots i (Nat.lt_succ_of_lt hi)))

/-! ### Invariant preservation -/

theorem alloc_lookup_at {T : Type} {p : Pool T} {value : T} {h : Ptr T} {p' : Pool T}
    (hok : p.alloc value = Except.ok (h, p')) :
    p'.lookup h.loc = some (Entry.Occupied value) := by
  rcases alloc_ok_cases hok with ⟨nxt, _, hl, _, hp⟩ | ⟨_, hh, hp⟩
  · rw [hp]
    exact getSlot_write_self hl _
  · rw [hp]
    show getSlot (writeSlot _ _ _) h.loc = _
    have hpre : getSlot (p.blocks ++ [(Pool.new_block (T := T) p.blocks.length).2])
        (p.blocks.length, 1023) = some (Entry.Vacant (some (p.blocks.length, 1022))) := by
      rw [getSlot_append_new]
      have hs := new_block_slots (T := T) p.blocks.length (i := 1023)
        (by norm_num [BLOCK_SIZE])
      simpa using hs
    rw [hh]
    exact getSlot_write_self hpre _

theorem alloc_preserve {T : Type} {p : Pool T} {value : T} {h : Ptr T} {p' : Pool T}
    (hok : p.alloc value = Except.ok (h, p')) :
    ∀ l : Loc, l ≠ h.loc → ∀ e, p.lookup l = some e → p'.lookup l = some e := by
  intro l hne e hl
  rcases alloc_ok_cases hok with ⟨nxt, _, _, _, hp⟩ | ⟨_, hh, hp⟩
  · rw [hp]
    show getSlot (writeSlot _ _ _) l = _
    rw [getSlot_write_ne _ hne]
    exact hl
  · have hne' : l ≠ (p.blocks.length, 1023) := by
      rw [hh] at hne
      simpa using hne
    rw [hp]
    show getSlot (writeSlot _ _ _) l = _
    rw [getSlot_write_ne _ hne']
    exact getSlot_append_preserve _ hl

theorem alloc_not_occupied {T : Type} {p : Pool T} {value : T} {h : Ptr T} {p' : Pool T}
    (hok : p.alloc value = Except.ok (h, p')) :
    ∀ w, p.lookup h.loc ≠ some (Entry.Occupied w) := by
  intro w hcon
  rcases alloc_ok_cases hok with ⟨nxt, _, hl, _, _⟩ | ⟨_, hh, _⟩
  · rw [hl] at hcon
    simp at hcon
  · have : p.lookup h.loc = none := by
      show getSlot p.blocks h.loc = none
      unfold getSlot
      rw [hh]
      rw [getAt_none_of_ge (Nat.le_refl _)]
    rw [this] at hcon
    exact Option.noConfusion hcon

theorem alloc_ids {T : Type} {p : Pool T} {value : T} {h : Ptr T} {p' : Pool T}
    (hok : p.alloc value = Except.ok (h, p')) :
    h.pool_id = p.id ∧ p'.id = p.id := by
  rcases alloc_ok_cases hok with ⟨nxt, _, _, hh, hp⟩ | ⟨_, hh, hp⟩ <;>
    exact ⟨by rw [hh], by rw [hp]⟩

theorem alloc_isSome_preserve {T : Type} {p : Pool T} {value : T} {h : Ptr T}
    {p' : Pool T} (hok : p.alloc value = Except.ok (h, p')) :
    ∀ l e, p.lookup l = some e → ∃ e', p'.lookup l = some e' := by
  intro l e hl
  by_cases hne : l = h.loc
  · subst hne
    exact ⟨_, alloc_lookup_at hok⟩
  · exact ⟨e, alloc_preserve hok l hne e hl⟩

theorem chainInv_alloc {T : Type} {p : Pool T} {value : T} {h : Ptr T} {p' : Pool T}
    (hinv : ChainInv p) (hok : p.alloc value = Except.ok (h, p')) : ChainInv p' := by
  obtain ⟨ls, hch, hnd⟩ := hinv
  rcases alloc_ok_cases hok with ⟨nxt, hv, hl, _, hp⟩ | ⟨hv, hh, hp⟩
  · rw [hv] at hch
    cases hch with
    | cons hlk hrest =>
      rename_i nxt' tl
      have hnxt : nxt' = nxt := by
        have h0 := hlk.symm.trans hl
        simp only [Option.some.injEq, Entry.Vacant.injEq] at h0
        exact h0
      have hnotin : h.loc ∉ tl := (List.nodup_cons.mp hnd).1
      refine ⟨tl, ?_, (List.nodup_cons.mp hnd).2⟩
      have : p'.vacant = nxt := by rw [hp]
      rw [this, ← hnxt]
      refine freeChain_transfer hrest ?_
      intro l hl'
      have hlne : l ≠ h.loc := fun he => hnotin (he ▸ hl')
      rw [hp]
      show getSlot (writeSlot _ _ _) l = _
      rw [getSlot_write_ne _ hlne]
      rfl
  · rw [hv] at hch
    cases hch with
    | nil =>
      refine ⟨descLocs p.blocks.length 1023, ?_, descLocs_nodup _ _⟩
      have hslots : ∀ i, i < 1023 →
          p'.lookup (p.blocks.length, i) =
            some (Entry.Vacant (if i = 0 then none else some (p.blocks.length, i - 1))) := by
        intro i hi
        rw [hp]
        show getSlot (writeSlot _ _ _) _ = _
        rw [getSlot_write_ne _ (by
          intro he
          have : i = 1023 := congrArg Prod.snd he
          omega)]
        rw [getSlot_append_new]
        exact new_block_slots _ (by
          have : (1023 : Nat) < BLOCK_SIZE := by norm_num [BLOCK_SIZE]
          omega)
      have hchain := freeChain_desc (p := p') (b := p.blocks.length) 1023 hslots
      have hvac : p'.vacant = some (p.blocks.length, 1022) := by rw [hp]
      rw [hvac]
      simpa using hchain

theorem chainInv_free {T : Type} {p : Pool T} {h : Ptr T} {b : Bool} {p₁ : Pool T}
    (hinv : ChainInv p) (hok : p.free h = Except.ok (b, p₁)) : ChainInv p₁ := by
  obtain ⟨ls, hch, hnd⟩ := hinv
  rcases (free_ok_cases hok).2 with ⟨_, _, hp⟩ | ⟨_, ⟨w, hl⟩, hp⟩
  · rw [hp]; exact ⟨ls, hch, hnd⟩
  · have hnotin : h.loc ∉ ls := by
      intro hmem
      obtain ⟨nxt, hlk⟩ := freeChain_mem_vacant hch h.loc hmem
      rw [hl] at hlk
      simp at hlk
    refine ⟨h.loc :: ls, ?_, List.nodup_cons.mpr ⟨hnotin, hnd⟩⟩
    have hvac : p₁.vacant = some h.loc := by rw [hp]
    have hlk1 : p₁.lookup h.loc = some (Entry.Vacant p.vacant) := by
      rw [hp]
      exact getSlot_write_self hl _
    have htail : FreeChain p₁ p.vacant ls := by
      refine freeChain_transfer hch ?_
      intro l hl'
      have hlne : l ≠ h.loc := fun he => hnotin (he ▸ hl')
      rw [hp]
      show getSlot (writeSlot _ _ _) l = _
      rw [getSlot_write_ne _ hlne]
      rfl
    rw [hvac]
    exact FreeChain.cons hlk1 htail

theorem chainInv_mutate {T : Type} {p : Pool T} {l : Loc} {w v : T}
    (hinv : ChainInv p) (hl : p.lookup l = some (Entry.Occupied w)) :
    ChainInv (⟨writeSlot p.blocks l (Entry.Occupied v), p.vacant, p.id⟩ : Pool T) := by
  obtain ⟨ls, hch, hnd⟩ := hinv
  have hnotin : l ∉ ls := by
    intro hmem
    obtain ⟨nxt, hlk⟩ := freeChain_mem_vacant hch l hmem
    rw [hl] at hlk
    simp at hlk
  refine ⟨ls, ?_, hnd⟩
  refine freeChain_transfer hch ?_
  intro l' hl'
  have hlne : l' ≠ l := fun he => hnotin (he ▸ hl')
  show getSlot (writeSlot _ _ _) l' = _
  rw [getSlot_write_ne _ hlne]
  rfl

theorem alloc_total {T : Type} {p : Pool T} (hinv : ChainInv p) (value : T) :
    ∃ h p', p.alloc value = Except.ok (h, p') := by
  cases hv : p.vacant with
  | none => exact ⟨_, _, alloc_vacant_none_eq value hv⟩
  | some v =>
    obtain ⟨ls, hch, _⟩ := hinv
    rw [hv] at hch
    cases hch with
    | cons hlk _ => exact ⟨_, _, alloc_vacant_some_eq value hv hlk⟩

/-! ### Reachable pool states -/

/-- `Reach p hs`: pool state `p`, with `hs` the slot addresses of the
handles issued so far, is reachable from a newly created pool by `alloc`,
`free` and writes through `get_mut`'s reference (`mutate`), using only
handles issued by this pool.  `get`/`get_mut` themselves do not change
the pool state. -/
inductive Reach {T : Type} : Pool T → List Loc → Prop where
  | new (c : Nat) : Reach (Pool.new (T := T) c).1 []
  | alloc {p : Pool T} {hs : List Loc} {v : T} {h : Ptr T} {p' : Pool T} :
      Reach p hs → p.alloc v = Except.ok (h, p') → Reach p' (h.loc :: hs)
  | free {p : Pool T} {hs : List Loc} {l : Loc} {b : Bool} {p' : Pool T} :
      Reach p hs → l ∈ hs → p.free ⟨l, p.id⟩ = Except.ok (b, p') → Reach p' hs
  | mutate {p : Pool T} {hs : List Loc} {l : Loc} {w v : T} :
      Reach p hs → l ∈ hs → p.lookup l = some (Entry.Occupied w) →
      Reach ⟨writeSlot p.blocks l (Entry.Occupied v), p.vacant, p.id⟩ hs

theorem reach_inv {T : Type} {p : Pool T} {hs : List Loc} (hr : Reach p hs) :
    ChainInv p ∧ ∀ l ∈ hs, ∃ e, p.lookup l = some e := by
  induction hr with
  | new c =>
    exact ⟨⟨[], FreeChain.nil, List.nodup_nil⟩,
      fun l hl => absurd hl (List.not_mem_nil l)⟩
  | alloc hre hok ih =>
    obtain ⟨hinv, hiss⟩ := ih
    refine ⟨chainInv_alloc hinv hok, ?_⟩
    intro l hl
    rcases List.mem_cons.mp hl with he | ht
    · subst he
      exact ⟨_, alloc_lookup_at hok⟩
    · obtain ⟨e, hle⟩ := hiss l ht
      exact alloc_isSome_preserve hok l e hle
  | free hre hmem hok ih =>
    obtain ⟨hinv, hiss⟩ := ih
    refine ⟨chainInv_free hinv hok, ?_⟩
    intro l hl
    obtain ⟨e, hle⟩ := hiss l hl
    rcases (free_ok_cases hok).2 with ⟨_, _, hp⟩ | ⟨_, _, hp⟩
    · rw [hp]
      exact ⟨e, hle⟩
    · rw [hp]
      exact getSlot_write_isSome hle _
  | mutate hre hmem hlk ih =>
    obtain ⟨hinv, hiss⟩ := ih
    refine ⟨chainInv_mutate hinv hlk, ?_⟩
    intro l hl
    obtain ⟨e, hle⟩ := hiss l hl
    exact getSlot_write_isSome hle _

/-! ### Runs of consecutive allocations -/

theorem allocList_cons_cases {T : Type} {p : Pool T} {v : T} {vs : List T}
    {hs : List (Ptr T)} {p' : Pool T}
    (hok : allocList p (v :: vs) = Except.ok (hs, p')) :
    ∃ h p₁ tl, p.alloc v = Except.ok (h, p₁) ∧
      allocList p₁ vs = Except.ok (tl, p') ∧ hs = h :: tl := by
  unfold allocList at hok
  cases ha : p.alloc v with
  | error e =>
    simp only [ha] at hok
    exact Except.noConfusion hok
  | ok pr =>
    obtain ⟨h, p₁⟩ := pr
    simp only [ha] at hok
    cases hrec : allocList p₁ vs with
    | error e =>
      simp only [hrec] at hok
      exact Except.noConfusion hok
    | ok pr₂ =>
      obtain ⟨tl, p₂⟩ := pr₂
      simp only [hrec, Except.ok.injEq, Prod.mk.injEq] at hok
      refine ⟨h, p₁, tl, rfl, ?_, hok.1.symm⟩
      rw [← hok.2]
      exact hrec

theorem allocList_spec {T : Type} :
    ∀ (vs : List T) (p : Pool T) (hs : List (Ptr T)) (p' : Pool T),
      ChainInv p → allocList p vs = Except.ok (hs, p') →
      ChainInv p' ∧ p'.id = p.id ∧ hs.length = vs.length ∧
      (∀ l w, p.lookup l = some (Entry.Occupied w) →
        p'.lookup l = some (Entry.Occupied w)) ∧
      (∀ h ∈ hs, ∀ w, p.lookup h.loc ≠ some (Entry.Occupied w)) ∧
      (∀ i h v, getAt hs i = some h → getAt vs i = some v →
        h.pool_id = p.id ∧ p'.lookup h.loc = some (Entry.Occupied v)) ∧
      List.Pairwise (fun a b => a.loc ≠ b.loc) hs := by
  intro vs
  induction vs with
  | nil =>
    intro p hs p' hinv hok
    unfold allocList at hok
    simp only [Except.ok.injEq, Prod.mk.injEq] at hok
    obtain ⟨h1, h2⟩ := hok
    subst h1
    subst h2
    refine ⟨hinv, rfl, rfl, fun l w hl => hl, ?_, ?_, List.Pairwise.nil⟩
    · intro h hmem
      exact absurd hmem (List.not_mem_nil h)
    · intro i h v hgh
      cases i <;> exact absurd hgh (by simp [getAt])
  | cons v vs ih =>
    intro p hs p' hinv hok
    obtain ⟨h, p₁, tl, ha, hrec, hhs⟩ := allocList_cons_cases hok
    subst hhs
    have hinv₁ := chainInv_alloc hinv ha
    obtain ⟨hinv', hid', hlen, hpres, hnocc, hget, hpw⟩ := ih p₁ tl p' hinv₁ hrec
    refine ⟨hinv', ?_, ?_, ?_, ?_, ?_, ?_⟩
    · rw [hid', (alloc_ids ha).2]
    · simpa using hlen
    · intro l w hl
      have hlne : l ≠ h.loc := by
        intro he
        exact alloc_not_occupied ha w (he ▸ hl)
      exact hpres l w (alloc_preserve ha l hlne _ hl)
    · intro h' hmem w hcon
      rcases List.mem_cons.mp hmem with he | ht
      · subst he
        exact alloc_not_occupied ha w hcon
      · have hlne : h'.loc ≠ h.loc := by
          intro he
          exact alloc_not_occupied ha w (he ▸ hcon)
        exact hnocc h' ht w (alloc_preserve ha h'.loc hlne _ hcon)
    · intro i h' v' hgh hgv
      cases i with
      | zero =>
        have hh' : h = h' := by simpa [getAt] using hgh
        have hv' : v = v' := by simpa [getAt] using hgv
        subst hh'
        subst hv'
        exact ⟨(alloc_ids ha).1, hpres _ _ (alloc_lookup_at ha)⟩
      | succ j =>
        have hgh' : getAt tl j = some h' := by simpa [getAt] using hgh
        have hgv' : getAt vs j = some v' := by simpa [getAt] using hgv
        obtain ⟨hid2, hocc2⟩ := hget j h' v' hgh' hgv'
        refine ⟨?_, hocc2⟩
        rw [hid2, (alloc_ids ha).2]
    · refine List.Pairwise.cons ?_ hpw
      intro b hb he
      have hocc : p₁.lookup h.loc = some (Entry.Occupied v) := alloc_lookup_at ha
      exact hnocc b hb v (by rw [← he]; exact hocc)

/-! ### Exact block counting along a fresh run of allocations -/

theorem descLocs_length (b n : Nat) : (descLocs b n).length = n := by
  induction n with
  | zero => rfl
  | succ m ih => simp [descLocs, ih]

theorem freeChain_nil_vacant {T : Type} {p : Pool T} {o : Option Loc}
    (h : FreeChain p o []) : o = none := by
  cases h
  rfl

/-- Invariant of a pool that was created fresh and has since served
exactly `n` `alloc` calls and no `free`: the free chain complements the
served allocations to a whole number of blocks, and is shorter than one
block unless no block has been allocated yet. -/
def FreshInv {T : Type} (p : Pool T) (n : Nat) : Prop :=
  ∃ ls, FreeChain p p.vacant ls ∧ ls.Nodup ∧
    ls.length + n = p.blocks.length * BLOCK_SIZE ∧
    (ls.length < BLOCK_SIZE ∨ p.blocks.length = 0)

theorem freshInv_zero {T : Type} (c : Nat) : FreshInv (Pool.new (T := T) c).1 0 := by
  refine ⟨[], FreeChain.nil, List.nodup_nil, ?_, Or.inr rfl⟩
  simp [Pool.new]

theorem freshInv_alloc {T : Type} {p : Pool T} {n : Nat} {value : T} {h : Ptr T}
    {p' : Pool T} (hfr : FreshInv p n) (hok : p.alloc value = Except.ok (h, p')) :
    FreshInv p' (n + 1) := by
  obtain ⟨ls, hch, hnd, hlen, hbound⟩ := hfr
  rcases alloc_ok_cases hok with ⟨nxt, hv, hl, _, hp⟩ | ⟨hv, hh, hp⟩
  · rw [hv] at hch
    cases hch with
    | cons hlk hrest =>
      rename_i nxt' tl
      have hnxt : nxt' = nxt := by
        have h0 := hlk.symm.trans hl
        simp only [Option.some.injEq, Entry.Vacant.injEq] at h0
        exact h0
      have hnotin : h.loc ∉ tl := (List.nodup_cons.mp hnd).1
      have hblocks : p'.blocks.length = p.blocks.length := by
        rw [hp]
        exact writeSlot_length _ _ _
      refine ⟨tl, ?_, (List.nodup_cons.mp hnd).2, ?_, ?_⟩
      · have hvac : p'.vacant = nxt := by rw [hp]
        rw [hvac, ← hnxt]
        refine freeChain_transfer hrest ?_
        intro l hl'
        have hlne : l ≠ h.loc := fun he => hnotin (he ▸ hl')
        rw [hp]
        show getSlot (writeSlot _ _ _) l = _
        rw [getSlot_write_ne _ hlne]
        rfl
      · rw [hblocks]
        simp only [List.length_cons] at hlen
        omega
      · rw [hblocks]
        simp only [List.length_cons] at hlen
        rcases hbound with hb | hb
        · simp only [List.length_cons] at hb
          left
          omega
        · rw [hb] at hlen
          simp at hlen
  · rw [hv] at hch
    cases hch with
    | nil =>
      have hblocks : p'.blocks.length = p.blocks.length + 1 := by
        rw [hp]
        show (writeSlot _ _ _).length = _
        rw [writeSlot_length]
        simp
      have hslots : ∀ i, i < 1023 →
          p'.lookup (p.blocks.length, i) =
            some (Entry.Vacant (if i = 0 then none else some (p.blocks.length, i - 1))) := by
        intro i hi
        rw [hp]
        show getSlot (writeSlot _ _ _) _ = _
        rw [getSlot_write_ne _ (by
          intro he
          have : i = 1023 := congrArg Prod.snd he
          omega)]
        rw [getSlot_append_new]
        exact new_block_slots _ (by
          have : (1023 : Nat) < BLOCK_SIZE := by norm_num [BLOCK_SIZE]
          omega)
      have hchain := freeChain_desc (p := p') (b := p.blocks.length) 1023 hslots
      have hvac : p'.vacant = some (p.blocks.length, 1022) := by rw [hp]
      refine ⟨descLocs p.blocks.length 1023, ?_, descLocs_nodup _ _, ?_, ?_⟩
      · rw [hvac]
        simpa using hchain
      · rw [hblocks, descLocs_length]
        simp only [List.length_nil] at hlen
        have hB : BLOCK_SIZE = 1024 := rfl
        rw [hB] at hlen ⊢
        omega
      · left
        rw [descLocs_length]
        norm_num [BLOCK_SIZE]

theorem freshInv_allocList {T : Type} :
    ∀ (vs : List T) (p : Pool T) (n : Nat) (hs : List (Ptr T)) (p' : Pool T),
      FreshInv p n → allocList p vs = Except.ok (hs, p') →
      FreshInv p' (n + vs.length) := by
  intro vs
  induction vs with
  | nil =>
    intro p n hs p' hfr hok
    unfold allocList at hok
    simp only [Except.ok.injEq, Prod.mk.injEq] at hok
    rw [← hok.2]
    simpa using hfr
  | cons v vs ih =>
    intro p n hs p' hfr hok
    obtain ⟨h, p₁, tl, ha, hrec, _⟩ := allocList_cons_cases hok
    have hstep := ih p₁ (n + 1) tl p' (freshInv_alloc hfr ha) hrec
    have harith : n + 1 + vs.length = n + (v :: vs).length := by
      simp [List.length_cons]
      omega
    rw [harith] at hstep
    exact hstep

theorem freshInv_mul {T : Type} {p : Pool T} {k : Nat}
    (hfr : FreshInv p (k * BLOCK_SIZE)) :
    p.blocks.length = k ∧ p.vacant = none := by
  obtain ⟨ls, hch, _, hlen, hbound⟩ := hfr
  have hB : BLOCK_SIZE = 1024 := rfl
  rw [hB] at hlen
  have h0 : ls.length = 0 ∧ p.blocks.length = k := by
    rcases hbound with hb | hb
    · rw [hB] at hb
      omega
    · omega
  have hnil : ls = [] := List.eq_nil_of_length_eq_zero h0.1
  subst hnil
  exact ⟨h0.2, freeChain_nil_vacant hch⟩

/-! ### Evaluation equations for the access operations -/

theorem get_mismatch_eq {T : Type} {p : Pool T} {h : Ptr T}
    (hne : h.pool_id ≠ p.id) : p.get h = Except.error () := by
  unfold Pool.get
  rw [if_neg hne]

theorem get_mut_mismatch_eq {T : Type} {p : Pool T} {h : Ptr T}
    (hne : h.pool_id ≠ p.id) : p.get_mut h = Except.error () := by
  unfold Pool.get_mut Pool.getUnchecked
  rw [if_neg hne]

theorem free_mismatch_eq {T : Type} {p : Pool T} {h : Ptr T}
    (hne : h.pool_id ≠ p.id) : p.free h = Except.error () := by
  unfold Pool.free
  rw [if_neg hne]

theorem get_vacant_eq {T : Type} {p : Pool T} {h : Ptr T} {nxt : Option Loc}
    (hid : h.pool_id = p.id) (hv : p.lookup h.loc = some (Entry.Vacant nxt)) :
    p.get h = Except.ok none := by
  unfold Pool.get Ptr.as_ref
  rw [if_pos hid]
  simp only [hv]

theorem get_occupied_eq {T : Type} {p : Pool T} {h : Ptr T} {w : T}
    (hid : h.pool_id = p.id) (hocc : p.lookup h.loc = some (Entry.Occupied w)) :
    p.get h = Except.ok (some ⟨w, h.loc, h.pool_id⟩) := by
  unfold Pool.get Ptr.as_ref
  rw [if_pos hid]
  simp only [hocc]

theorem get_mut_vacant_eq {T : Type} {p : Pool T} {h : Ptr T} {nxt : Option Loc}
    (hid : h.pool_id = p.id) (hv : p.lookup h.loc = some (Entry.Vacant nxt)) :
    p.get_mut h = Except.ok none := by
  unfold Pool.get_mut Pool.getUnchecked Ptr.as_mut
  rw [if_pos hid]
  simp only [hv]

theorem get_mut_occupied_eq {T : Type} {p : Pool T} {h : Ptr T} {w : T}
    (hid : h.pool_id = p.id) (hocc : p.lookup h.loc = some (Entry.Occupied w)) :
    p.get_mut h = Except.ok (some w) := by
  unfold Pool.get_mut Pool.getUnchecked Ptr.as_mut
  rw [if_pos hid]
  simp only [hocc]

theorem getAt_mem {α : Type} {xs : List α} {n : Nat} {a : α}
    (h : getAt xs n = some a) : a ∈ xs := by
  induction xs generalizing n with
  | nil => exact absurd h (by simp [getAt])
  | cons x ys ih =>
    cases n with
    | zero =>
      have : x = a := by simpa [getAt] using h
      rw [← this]
      exact List.mem_cons_self _ _
    | succ m => exact List.mem_cons_of_mem _ (ih h)

theorem pairwise_getAt {α : Type} {R : α → α → Prop} :
    ∀ {l : List α}, List.Pairwise R l → ∀ {i j : Nat} {a b : α},
      i < j → getAt l i = some a → getAt l j = some b → R a b := by
  intro l
  induction l with
  | nil =>
    intro _ i j a b _ hga _
    exact absurd hga (by simp [getAt])
  | cons x xs ih =>
    intro hp i j a b hij hga hgb
    cases i with
    | zero =>
      have hax : x = a := by simpa [getAt] using hga
      cases j with
      | zero => exact absurd hij (Nat.lt_irrefl 0)
      | succ j' =>
        have hgb' : getAt xs j' = some b := by simpa [getAt] using hgb
        exact hax ▸ ((List.pairwise_cons.mp hp).1 b (getAt_mem hgb'))
    | succ i' =>
      cases j with
      | zero => exact absurd hij (by omega)
      | succ j' =>
        exact ih (List.pairwise_cons.mp hp).2 (Nat.lt_of_succ_lt_succ hij)
          (by simpa [getAt] using hga) (by simpa [getAt] using hgb)

/-! ### Claims -/

/-- C10: for every pool state and every handle of this pool whose slot is
currently Vacant, `free` returns `false` and leaves the entire pool
unchanged — the returned pool is literally the input pool, so the
free-list head, the block sequence and every slot's contents are exactly
as before the call. -/
theorem claim10_failed_free_unchanged {T : Type} (p : Pool T) (h : Ptr T)
    (nxt : Option Loc) (hid : h.pool_id = p.id)
    (hvac : p.lookup h.loc = some (Entry.Vacant nxt)) :
    p.free h = Except.ok (false, p) :=
  free_vacant_eq hid hvac

/-- Witness for C10: a one-slot pool whose only slot is Vacant. -/
theorem claim10_witness :
    (⟨[[Entry.Vacant none]], some (0, 0), 3⟩ : Pool Nat).free ⟨(0, 0), 3⟩ =
      Except.ok (false, ⟨[[Entry.Vacant none]], some (0, 0), 3⟩) :=
  claim10_failed_free_unchanged ⟨[[Entry.Vacant none]], some (0, 0), 3⟩
    ⟨(0, 0), 3⟩ none rfl rfl

/-- C2: for every handle `h` of a pool whose slot is currently Occupied,
`free h` returns `true`; on the resulting pool, `get h` and `get_mut h`
return no value, and a second `free h` returns `false` (a reported no-op
leaving the pool unchanged, not a crash). -/
theorem claim2_free_then_inaccessible {T : Type} (p : Pool T) (h : Ptr T) (w : T)
    (hid : h.pool_id = p.id) (hocc : p.lookup h.loc = some (Entry.Occupied w)) :
    ∃ p₁, p.free h = Except.ok (true, p₁) ∧
      p₁.get h = Except.ok none ∧ p₁.get_mut h = Except.ok none ∧
      p₁.free h = Except.ok (false, p₁) := by
  refine ⟨⟨writeSlot p.blocks h.loc (Entry.Vacant p.vacant), some h.loc, p.id⟩,
    free_occupied_eq hid hocc, ?_, ?_, ?_⟩
  all_goals
    have hid1 : h.pool_id =
        (⟨writeSlot p.blocks h.loc (Entry.Vacant p.vacant), some h.loc, p.id⟩ : Pool T).id :=
      hid
  all_goals
    have hvac1 : Pool.lookup
        (⟨writeSlot p.blocks h.loc (Entry.Vacant p.vacant), some h.loc, p.id⟩ : Pool T)
        h.loc = some (Entry.Vacant p.vacant) :=
      getSlot_write_self hocc _
  · exact get_vacant_eq hid1 hvac1
  · exact get_mut_vacant_eq hid1 hvac1
  · exact free_vacant_eq hid1 hvac1

/-- Witness for C2: a one-slot pool holding the value 5. -/
theorem claim2_witness :
    ∃ p₁, (⟨[[Entry.Occupied 5]], none, 7⟩ : Pool Nat).free ⟨(0, 0), 7⟩ =
        Except.ok (true, p₁) ∧
      p₁.get ⟨(0, 0), 7⟩ = Except.ok none ∧
      p₁.get_mut ⟨(0, 0), 7⟩ = Except.ok none ∧
      p₁.free ⟨(0, 0), 7⟩ = Except.ok (false, p₁) :=
  claim2_free_then_inaccessible ⟨[[Entry.Occupied 5]], none, 7⟩ ⟨(0, 0), 7⟩ 5 rfl rfl

/-- C4: for every pool state, if `free h` returns `true` and the next
operation is `alloc v`, then that `alloc` returns exactly `h` (same slot
location, same pool identity), and the pool's block count is unchanged by
the `free` and by this `alloc`. -/
theorem claim4_freed_slot_reused {T : Type} (p p₁ : Pool T) (h : Ptr T) (v : T)
    (hfree : p.free h = Except.ok (true, p₁)) :
    ∃ p₂, p₁.alloc v = Except.ok (h, p₂) ∧
      p₁.blocks.length = p.blocks.length ∧
      p₂.blocks.length = p.blocks.length := by
  obtain ⟨hid, hcases⟩ := free_ok_cases hfree
  rcases hcases with ⟨hb, _, _⟩ | ⟨_, ⟨w, hocc⟩, hp⟩
  · exact absurd hb (by simp)
  · subst hp
    have hvac1 : (⟨writeSlot p.blocks h.loc (Entry.Vacant p.vacant), some h.loc, p.id⟩ :
        Pool T).vacant = some h.loc := rfl
    have hlk1 : (⟨writeSlot p.blocks h.loc (Entry.Vacant p.vacant), some h.loc, p.id⟩ :
        Pool T).lookup h.loc = some (Entry.Vacant p.vacant) :=
      getSlot_write_self hocc _
    have halloc := alloc_vacant_some_eq v hvac1 hlk1
    have hptr : (⟨h.loc, p.id⟩ : Ptr T) = h := by
      rw [← hid]
    refine ⟨⟨writeSlot (writeSlot p.blocks h.loc (Entry.Vacant p.vacant)) h.loc
        (Entry.Occupied v), p.vacant, p.id⟩, ?_, ?_, ?_⟩
    · rw [← hptr]
      exact halloc
    · exact writeSlot_length _ _ _
    · show (writeSlot _ _ _).length = _
      rw [writeSlot_length]
      exact writeSlot_length _ _ _

/-- Witness for C4: free the single occupied slot, then alloc; the handle
comes back and the block count stays 1 throughout. -/
theorem claim4_witness :
    ∃ p₂, (⟨[[Entry.Vacant none]], some (0, 0), 7⟩ : Pool Nat).alloc 42 =
        Except.ok (⟨(0, 0), 7⟩, p₂) ∧
      (⟨[[Entry.Vacant none]], some (0, 0), 7⟩ : Pool Nat).blocks.length =
        (⟨[[Entry.Occupied 5]], none, 7⟩ : Pool Nat).blocks.length ∧
      p₂.blocks.length = (⟨[[Entry.Occupied 5]], none, 7⟩ : Pool Nat).blocks.length := by
  have hfree : (⟨[[Entry.Occupied 5]], none, 7⟩ : Pool Nat).free ⟨(0, 0), 7⟩ =
      Except.ok (true, ⟨[[Entry.Vacant none]], some (0, 0), 7⟩) := rfl
  exact claim4_freed_slot_reused ⟨[[Entry.Occupied 5]], none, 7⟩
    ⟨[[Entry.Vacant none]], some (0, 0), 7⟩ ⟨(0, 0), 7⟩ 42 hfree

/-- C1: for every sequence of `alloc` calls on a single pool with no
intervening `free` calls (from any state whose free list satisfies the
chain invariant, in particular any reachable state), the returned handles
are pairwise distinct, and for each handle returned by `alloc v`, `get`
on the resulting pool returns a view of exactly the value `v`. -/
theorem claim1_allocs_distinct_and_retrievable {T : Type} (p : Pool T) (vs : List T)
    (hs : List (Ptr T)) (p' : Pool T) (hinv : ChainInv p)
    (hrun : allocList p vs = Except.ok (hs, p')) :
    (∀ i j hi hj, i < j → getAt hs i = some hi → getAt hs j = some hj → hi ≠ hj) ∧
    (∀ i h v, getAt hs i = some h → getAt vs i = some v →
      p'.get h = Except.ok (some ⟨v, h.loc, h.pool_id⟩)) := by
  obtain ⟨_, hid', _, _, _, hget, hpw⟩ := allocList_spec vs p hs p' hinv hrun
  constructor
  · intro i j hi hj hij hgi hgj
    intro he
    exact pairwise_getAt hpw hij hgi hgj (congrArg Ptr.loc he)
  · intro i h v hgh hgv
    obtain ⟨hid, hocc⟩ := hget i h v hgh hgv
    exact get_occupied_eq (hid.trans hid'.symm) hocc

/-- Witness for C1: a one-slot pool with a vacant slot; allocating `[7]`
yields the handle of that slot, and `get` returns the view of 7. -/
theorem claim1_witness :
    (∀ i j hi hj, i < j →
      getAt ([⟨(0, 0), 5⟩] : List (Ptr Nat)) i = some hi →
      getAt ([⟨(0, 0), 5⟩] : List (Ptr Nat)) j = some hj → hi ≠ hj) ∧
    (∀ i h v, getAt ([⟨(0, 0), 5⟩] : List (Ptr Nat)) i = some h →
      getAt [7] i = some v →
      (⟨[[Entry.Occupied 7]], none, 5⟩ : Pool Nat).get h =
        Except.ok (some ⟨v, h.loc, h.pool_id⟩)) :=
  claim1_allocs_distinct_and_retrievable ⟨[[Entry.Vacant none]], some (0, 0), 5⟩ [7]
    [⟨(0, 0), 5⟩] ⟨[[Entry.Occupied 7]], none, 5⟩
    ⟨[(0, 0)], FreeChain.cons rfl FreeChain.nil, List.nodup_singleton _⟩ rfl

/-- C3: block growth is lazy and exact: a fresh pool, after a run of
exactly `k * BLOCK_SIZE` successful `alloc` calls and no frees, owns
exactly `k` blocks, and any one further `alloc` succeeds and makes it own
`k + 1` blocks. -/
theorem claim3_block_growth_exact {T : Type} (c k : Nat) (vs : List T)
    (hs : List (Ptr T)) (p' : Pool T)
    (hlen : vs.length = k * BLOCK_SIZE)
    (hrun : allocList (Pool.new (T := T) c).1 vs = Except.ok (hs, p')) :
    p'.blocks.length = k ∧
    ∀ v, ∃ h p'', p'.alloc v = Except.ok (h, p'') ∧ p''.blocks.length = k + 1 := by
  have hfr := freshInv_allocList vs (Pool.new (T := T) c).1 0 hs p' (freshInv_zero c) hrun
  rw [Nat.zero_add, hlen] at hfr
  obtain ⟨hbk, hvac⟩ := freshInv_mul hfr
  refine ⟨hbk, ?_⟩
  intro v
  refine ⟨_, _, alloc_vacant_none_eq v hvac, ?_⟩
  show (writeSlot _ _ _).length = k + 1
  rw [writeSlot_length]
  simp [hbk]

/-- Witness for C3 at `k = 0`: a fresh pool owns 0 blocks, and one alloc
grows it to 1 block. -/
theorem claim3_witness :
    ((Pool.new (T := Nat) 1).1).blocks.length = 0 ∧
    ∃ h p'', ((Pool.new (T := Nat) 1).1).alloc 0 = Except.ok (h, p'') ∧
      p''.blocks.length = 0 + 1 := by
  have hc := claim3_block_growth_exact (T := Nat) 1 0 [] [] (Pool.new (T := Nat) 1).1
    (by simp) rfl
  exact ⟨hc.1, hc.2 0⟩

/-- C9: starting from a newly created pool, after any sequence of
`alloc`, `free`, `get` and `get_mut` calls (including writes through
`get_mut`'s reference) using only handles issued by that pool, every slot
reachable from the pool's free-list head is Vacant; hence the fatal
internal-consistency branch in `alloc` (popped slot not Vacant) is
unreachable: every `alloc` returns normally. -/
theorem claim9_freelist_always_vacant {T : Type} (p : Pool T) (hs : List Loc)
    (hr : Reach p hs) :
    (∀ l, SlotReachable p p.vacant l → ∃ nxt, p.lookup l = some (Entry.Vacant nxt)) ∧
    (∀ v, ∃ h p', p.alloc v = Except.ok (h, p')) := by
  obtain ⟨⟨ls, hch, hnd⟩, _⟩ := reach_inv hr
  constructor
  · intro l hreach
    exact freeChain_mem_vacant hch l (slotReachable_mem hch hreach)
  · intro v
    exact alloc_total ⟨ls, hch, hnd⟩ v

/-- Witness for C9: the newly created pool is reachable, and `alloc`
on it returns normally. -/
theorem claim9_witness :
    ∃ h p', ((Pool.new (T := Nat) 1).1).alloc 0 = Except.ok (h, p') :=
  (claim9_freelist_always_vacant (Pool.new (T := Nat) 1).1 [] (Reach.new 1)).2 0

/-- C5 counterexample: on a freshly created pool (the first generated id,
`counterInit = 1`), accessing the `DANGLING` handle does NOT report "not
found": `get`, `get_mut` and `free` all hit the failed identity assertion
(a panic, modelled as `Except.error ()`), because `DANGLING`'s pool id is
the reserved `ZERO`, which is never issued. -/
theorem claim5_counterexample :
    ((Pool.new (T := Nat) counterInit).1).get Ptr.DANGLING = Except.error () ∧
    ((Pool.new (T := Nat) counterInit).1).get Ptr.DANGLING ≠ Except.ok none ∧
    ((Pool.new (T := Nat) counterInit).1).get_mut Ptr.DANGLING = Except.error () ∧
    ((Pool.new (T := Nat) counterInit).1).free Ptr.DANGLING = Except.error () := by
  have h1 : ((Pool.new (T := Nat) counterInit).1).get Ptr.DANGLING = Except.error () := rfl
  exact ⟨h1, fun hcon => Except.noConfusion (h1.symm.trans hcon), rfl, rfl⟩

/-- C5 (amended): every id the generator issues from the initial counter
value on is distinct from the reserved `ZERO`; hence on every pool with a
generated id, accessing the `DANGLING` constant handle via `get`,
`get_mut` or `free` terminates in the pool-identity assertion failure — a
deterministic panic, never a silently returned value. -/
theorem claim5_dangling_trips_assertion {T : Type} :
    (∀ c, counterInit ≤ c → (poolIdGen c).1 ≠ PoolId.ZERO) ∧
    (∀ p : Pool T, p.id ≠ PoolId.ZERO →
      p.get Ptr.DANGLING = Except.error () ∧
      p.get_mut Ptr.DANGLING = Except.error () ∧
      p.free Ptr.DANGLING = Except.error ()) := by
  constructor
  · intro c hc h0
    have hc1 : (1 : Nat) ≤ c := hc
    have : c = 0 := h0
    omega
  · intro p hp
    have hne : (Ptr.DANGLING (T := T)).pool_id ≠ p.id := by
      show PoolId.ZERO ≠ p.id
      exact fun he => hp he.symm
    exact ⟨get_mismatch_eq hne, get_mut_mismatch_eq hne, free_mismatch_eq hne⟩

/-- Witness for the amended C5: the first generated id is 1 ≠ ZERO, and
on a pool with id 1 all three operations on `DANGLING` panic. -/
theorem claim5_witness :
    (poolIdGen counterInit).1 ≠ PoolId.ZERO ∧
    ((⟨[], none, 1⟩ : Pool Nat).get Ptr.DANGLING = Except.error () ∧
     (⟨[], none, 1⟩ : Pool Nat).get_mut Ptr.DANGLING = Except.error () ∧
     (⟨[], none, 1⟩ : Pool Nat).free Ptr.DANGLING = Except.error ()) :=
  ⟨(claim5_dangling_trips_assertion (T := Nat)).1 counterInit (Nat.le_refl 1),
   (claim5_dangling_trips_assertion (T := Nat)).2 ⟨[], none, 1⟩ (by decide)⟩

/-- C6: the identity generator issues distinct ids at distinct counter
states (the counter strictly increases, so two distinct pools never share
an id); a handle stamped with one pool's id is never equal to a handle
stamped with a different pool's id, even at identical slot locations; and
passing it to the other pool's `get`, `get_mut` or `free` terminates in
the identity assertion failure (a panic), not a recoverable value. -/
theorem claim6_cross_pool_fatal {T : Type} (p₁ p₂ : Pool T) (h₁ h₂ : Ptr T)
    (hid : p₁.id ≠ p₂.id) (e₁ : h₁.pool_id = p₁.id) (e₂ : h₂.pool_id = p₂.id) :
    (∀ c₁ c₂ : Nat, c₁ ≠ c₂ → (poolIdGen c₁).1 ≠ (poolIdGen c₂).1) ∧
    (∀ c : Nat, c < (poolIdGen c).2) ∧
    h₁ ≠ h₂ ∧ h₁.beq h₂ = false ∧
    p₂.get h₁ = Except.error () ∧ p₂.get_mut h₁ = Except.error () ∧
    p₂.free h₁ = Except.error () ∧
    p₁.get h₂ = Except.error () ∧ p₁.get_mut h₂ = Except.error () ∧
    p₁.free h₂ = Except.error () := by
  have hne12 : h₁.pool_id ≠ p₂.id := by
    rw [e₁]
    exact hid
  have hne21 : h₂.pool_id ≠ p₁.id := by
    rw [e₂]
    exact fun he => hid he.symm
  have hpid : h₁.pool_id ≠ h₂.pool_id := by
    rw [e₁, e₂]
    exact hid
  refine ⟨fun c₁ c₂ hc => hc, fun c => Nat.lt_succ_self c, ?_, ?_,
    get_mismatch_eq hne12, get_mut_mismatch_eq hne12, free_mismatch_eq hne12,
    get_mismatch_eq hne21, get_mut_mismatch_eq hne21, free_mismatch_eq hne21⟩
  · intro he
    exact hpid (congrArg Ptr.pool_id he)
  · unfold Ptr.beq
    simp [hpid]

/-- Witness for C6: two pools with the generator's first two ids and two
handles at the identical slot location (0, 0). -/
theorem claim6_witness :
    ((⟨(0, 0), 1⟩ : Ptr Nat) ≠ ⟨(0, 0), 2⟩) ∧
    (⟨(0, 0), 1⟩ : Ptr Nat).beq ⟨(0, 0), 2⟩ = false ∧
    (⟨[], none, 2⟩ : Pool Nat).get ⟨(0, 0), 1⟩ = Except.error () ∧
    (⟨[], none, 2⟩ : Pool Nat).free ⟨(0, 0), 1⟩ = Except.error () := by
  have hc := claim6_cross_pool_fatal (⟨[], none, 1⟩ : Pool Nat) ⟨[], none, 2⟩
    ⟨(0, 0), 1⟩ ⟨(0, 0), 2⟩ (by decide) rfl rfl
  exact ⟨hc.2.2.1, hc.2.2.2.1, hc.2.2.2.2.1, hc.2.2.2.2.2.2.1⟩

theorem locCompare_eq_iff (x y : Loc) : locCompare x y = Ordering.eq ↔ x = y := by
  unfold locCompare
  rcases x with ⟨x1, x2⟩
  rcases y with ⟨y1, y2⟩
  split_ifs with h1 h2 h3 h4 <;> simp [Prod.mk.injEq] <;> omega

/-- C7: handle identity semantics.  Equality (both propositional and the
`PartialEq` embedding `beq`) holds iff the slot location and the owning
pool identity both match; the `Ord` embedding `cmp` is total and depends
solely on the slot location (two handles compare `eq` iff their locations
are equal, regardless of pool ids); the `Hash` embedding feeds only the
slot location to the hasher, so any hasher gives equal hashes to handles
with equal locations. -/
theorem claim7_identity_order_hash {T : Type} :
    (∀ a b : Ptr T, a.beq b = true ↔ (a.loc = b.loc ∧ a.pool_id = b.pool_id)) ∧
    (∀ a b : Ptr T, a = b ↔ (a.loc = b.loc ∧ a.pool_id = b.pool_id)) ∧
    (∀ a b c d : Ptr T, a.loc = c.loc → b.loc = d.loc → a.cmp b = c.cmp d) ∧
    (∀ a b : Ptr T, a.cmp b = Ordering.eq ↔ a.loc = b.loc) ∧
    (∀ a b : Ptr T, a.cmp b = Ordering.lt ∨ a.cmp b = Ordering.eq ∨
      a.cmp b = Ordering.gt) ∧
    (∀ (f : Loc → Nat) (a b : Ptr T), a.loc = b.loc →
      Ptr.hashWith f a = Ptr.hashWith f b) := by
  refine ⟨?_, ?_, ?_, ?_, ?_, ?_⟩
  · intro a b
    unfold Ptr.beq
    simp
  · intro a b
    constructor
    · intro he
      subst he
      exact ⟨rfl, rfl⟩
    · intro hab
      cases a
      cases b
      simp only [Ptr.mk.injEq]
      exact ⟨hab.1, hab.2⟩
  · intro a b c d h1 h2
    unfold Ptr.cmp
    rw [h1, h2]
  · intro a b
    exact locCompare_eq_iff a.loc b.loc
  · intro a b
    cases a.cmp b
    · exact Or.inl rfl
    · exact Or.inr (Or.inl rfl)
    · exact Or.inr (Or.inr rfl)
  · intro f a b he
    unfold Ptr.hashWith
    rw [he]

/-- Witness for C7 at concrete handles: handles differing only in pool id
are unequal yet compare `eq` and hash identically. -/
theorem claim7_witness :
    (⟨(0, 0), 1⟩ : Ptr Nat).beq ⟨(0, 0), 1⟩ = true ∧
    (⟨(0, 0), 1⟩ : Ptr Nat).cmp ⟨(0, 0), 2⟩ = Ordering.eq ∧
    Ptr.hashWith (fun l => 31 * l.1 + l.2) (⟨(0, 0), 1⟩ : Ptr Nat) =
      Ptr.hashWith (fun l => 31 * l.1 + l.2) (⟨(0, 0), 2⟩ : Ptr Nat) := by
  have hc := claim7_identity_order_hash (T := Nat)
  exact ⟨(hc.1 _ _).mpr ⟨rfl, rfl⟩, (hc.2.2.2.1 _ _).mpr rfl,
    hc.2.2.2.2.2 _ _ _ rfl⟩

/-- C8 counterexample: reading "first/last slot" as the slot of least /
greatest index in the block, the claim fails on two counts: `new_block`
returns the location of the block's LAST slot (index `BLOCK_SIZE - 1`),
not its first (index 0), and the last slot's link points at the
second-to-last slot, not at the previous free-list head (`none`). -/
theorem claim8_counterexample :
    (Pool.new_block (T := Nat) 0).1 ≠ some (0, 0) ∧
    getAt (Pool.new_block (T := Nat) 0).2 (BLOCK_SIZE - 1) ≠
      some (Entry.Vacant none) ∧
    (Pool.new_block (T := Nat) 0).1 = some (0, 1023) ∧
    getAt (Pool.new_block (T := Nat) 0).2 (BLOCK_SIZE - 1) =
      some (Entry.Vacant (some (0, 1022))) := by
  have hh := new_block_head (T := Nat) 0
  have hs := new_block_slots (T := Nat) 0 (i := BLOCK_SIZE - 1)
    (by norm_num [BLOCK_SIZE])
  have hB : BLOCK_SIZE - 1 = 1023 := rfl
  rw [hB] at hh hs ⊢
  simp only [show (1023 : Nat) ≠ 0 by decide, if_false] at hs
  have hs' : getAt (Pool.new_block (T := Nat) 0).2 1023 =
      some (Entry.Vacant (some (0, 1022))) := by
    rw [hs]
  refine ⟨?_, ?_, hh, hs'⟩
  · rw [hh]
    simp
  · rw [hs']
    simp

/-- C8 (amended): `new_block` builds one block of `BLOCK_SIZE` slots, all
initially Vacant, threaded into a singly linked list from the last slot
to the first (slot `i` links to slot `i - 1`), with the FIRST slot's link
`none` — which always equals the pool's previous free-list head, because
`alloc` only builds a block when the free list is empty; it returns the
location of the block's LAST slot, which becomes the new free-list head
(`alloc` installs it and immediately pops it as the returned handle). -/
theorem claim8_new_block_contract {T : Type} (b : Nat) :
    (Pool.new_block (T := T) b).2.length = BLOCK_SIZE ∧
    (∀ i, i < BLOCK_SIZE →
      getAt (Pool.new_block (T := T) b).2 i =
        some (Entry.Vacant (if i = 0 then none else some (b, i - 1)))) ∧
    (Pool.new_block (T := T) b).1 = some (b, BLOCK_SIZE - 1) ∧
    (∀ (p : Pool T) (v : T), p.vacant = none → ∃ p',
      p.alloc v = Except.ok (⟨(p.blocks.length, BLOCK_SIZE - 1), p.id⟩, p') ∧
      p'.vacant = some (p.blocks.length, BLOCK_SIZE - 2)) := by
  refine ⟨new_block_length b, fun i hi => new_block_slots b hi, new_block_head b, ?_⟩
  intro p v hv
  have hB1 : BLOCK_SIZE - 1 = 1023 := rfl
  have hB2 : BLOCK_SIZE - 2 = 1022 := rfl
  rw [hB1, hB2]
  exact ⟨_, alloc_vacant_none_eq v hv, rfl⟩

/-- Witness for the amended C8: slot 0 of a fresh block links to `none`,
and an alloc on an empty-free-list pool returns the last slot of the new
block as its handle. -/
theorem claim8_witness :
    getAt (Pool.new_block (T := Nat) 0).2 0 = some (Entry.Vacant none) ∧
    ∃ p', (⟨[], none, 1⟩ : Pool Nat).alloc 5 =
        Except.ok (⟨(0, BLOCK_SIZE - 1), 1⟩, p') ∧
      p'.vacant = some (0, BLOCK_SIZE - 2) := by
  have hc := claim8_new_block_contract (T := Nat) 0
  constructor
  · have h0 := hc.2.1 0 (by norm_num [BLOCK_SIZE])
    simpa using h0
  · have h1 := hc.2.2.2 (⟨[], none, 1⟩ : Pool Nat) 5 rfl
    simpa using h1
